import Mathlib

/-!
# Verification of the serde_bencode codec core

A shallow embedding of the Bencode encoder (`src/bencode/src/ser.rs`), the
decoder (`src/bencode/src/de.rs`), and the byte-source abstraction
(`src/src/read.rs`), together with proofs about the embedded definitions.

Bytes are modelled as `Nat` (values 0..255), byte strings as `List Nat`.
Machine integers (`i64` accumulation in `read_digits_to`) are modelled as
`Int` with explicit wrapping modulo `2 ^ 64` where the Rust code can
overflow.
-/

namespace Bencode

/-! ## Decimal rendering (model of the `itoa` crate used by `bencode_int!`) -/

/-- Decimal digit bytes of a positive natural number, most significant first;
`natDigits 0 = []`. -/
def natDigits : Nat → List Nat
  | 0 => []
  | n + 1 => natDigits ((n + 1) / 10) ++ [48 + (n + 1) % 10]
termination_by n => n
decreasing_by
  exact Nat.div_lt_self (Nat.succ_pos _) (by norm_num)

/-- Decimal rendering of a natural number (ASCII bytes), as `itoa` prints it. -/
def natDecimal (n : Nat) : List Nat :=
  if n = 0 then [48] else natDigits n

/-- Decimal rendering of a signed integer: sign byte 45 = `-` for negatives,
then the digits of the absolute value, as `itoa` prints an `i64`. -/
def intDecimal (n : Int) : List Nat :=
  if n < 0 then 45 :: natDigits n.natAbs else natDecimal n.natAbs

/-- `Formatter::string`: a byte string rendered as `<len>:<bytes>`
(byte 58 = `:`). -/
def encodeStrBytes (s : List Nat) : List Nat :=
  natDecimal s.length ++ 58 :: s

/-! ## 64-bit wrapping arithmetic -/

/-- Interpret an integer as a wrapped signed 64-bit value (release-mode Rust
`i64` overflow semantics, as the spec's Design Note 9(c) describes). -/
def wrap64 (x : Int) : Int :=
  (x + 2 ^ 63) % 2 ^ 64 - 2 ^ 63

/-- The `as usize` cast of an `i64` value (reinterpret modulo `2 ^ 64`). -/
def usizeOfI64 (x : Int) : Nat :=
  (x % 2 ^ 64).toNat

/-! ## UTF-8 validation (model of `String::from_utf8`) -/

/-- A UTF-8 continuation byte: `0x80 ≤ b ≤ 0xBF`. -/
def utf8Cont (b : Nat) : Bool :=
  decide (128 ≤ b) && decide (b ≤ 191)

/-- Whether a byte sequence is valid UTF-8, following the standard table that
`String::from_utf8` enforces. -/
def utf8Valid : List Nat → Bool
  | [] => true
  | b :: rest =>
    if b ≤ 127 then utf8Valid rest
    else if 194 ≤ b ∧ b ≤ 223 then
      match rest with
      | c1 :: rest2 => utf8Cont c1 && utf8Valid rest2
      | [] => false
    else if b = 224 then
      match rest with
      | c1 :: c2 :: rest2 =>
        (decide (160 ≤ c1) && decide (c1 ≤ 191)) && utf8Cont c2 && utf8Valid rest2
      | _ => false
    else if (225 ≤ b ∧ b ≤ 236) ∨ b = 238 ∨ b = 239 then
      match rest with
      | c1 :: c2 :: rest2 => utf8Cont c1 && utf8Cont c2 && utf8Valid rest2
      | _ => false
    else if b = 237 then
      match rest with
      | c1 :: c2 :: rest2 =>
        (decide (128 ≤ c1) && decide (c1 ≤ 159)) && utf8Cont c2 && utf8Valid rest2
      | _ => false
    else if b = 240 then
      match rest with
      | c1 :: c2 :: c3 :: rest2 =>
        (decide (144 ≤ c1) && decide (c1 ≤ 191)) && utf8Cont c2 && utf8Cont c3 &&
          utf8Valid rest2
      | _ => false
    else if 241 ≤ b ∧ b ≤ 243 then
      match rest with
      | c1 :: c2 :: c3 :: rest2 =>
        utf8Cont c1 && utf8Cont c2 && utf8Cont c3 && utf8Valid rest2
      | _ => false
    else if b = 244 then
      match rest with
      | c1 :: c2 :: c3 :: rest2 =>
        (decide (128 ≤ c1) && decide (c1 ≤ 143)) && utf8Cont c2 && utf8Cont c3 &&
          utf8Valid rest2
      | _ => false
    else false

/-! ## The value domain

The supported value space of the codec: UTF-8 text strings, 64-bit signed
integers, lists, and string-keyed maps (spec section 3). A dict is carried
as an association list in producer/input order; the encoder canonicalizes. -/

inductive Value where
  | vstr (s : List Nat) : Value
  | vint (n : Int) : Value
  | vlist (xs : List Value) : Value
  | vdict (es : List (List Nat × Value)) : Value

/-! ## Byte-lexicographic order and the `BTreeMap` model -/

/-- Byte-lexicographic strict order on byte strings, exactly the `Ord`
instance Rust uses for `String`/`[u8]` comparison. -/
def bytesLt : List Nat → List Nat → Bool
  | _, [] => false
  | [], _ :: _ => true
  | a :: as_, b :: bs =>
    if a < b then true
    else if b < a then false
    else bytesLt as_ bs

/-- Insertion into a `BTreeMap<String, String>` viewed as an association list
sorted ascending by `bytesLt` on the key; an equal key replaces the old
entry (last write wins). -/
def btInsert : List (List Nat × List Nat) → List Nat → List Nat →
    List (List Nat × List Nat)
  | [], k, v => [(k, v)]
  | (k1, v1) :: rest, k, v =>
    if bytesLt k k1 then (k, v) :: (k1, v1) :: rest
    else if k = k1 then (k, v) :: rest
    else (k1, v1) :: btInsert rest k v

/-- The `DictEncoder` canonicalization buffer: fold the rendered
(key, value) pairs into the `BTreeMap` in producer order. -/
def dictBuild (rendered : List (List Nat × List Nat)) : List (List Nat × List Nat) :=
  rendered.foldl (fun acc kv => btInsert acc kv.1 kv.2) []

/-! ## The encoder (`ser.rs`)

`serialize_i64`/`serialize_str`/`serialize_seq` stream directly; maps are
buffered per `DictEncoder`: each key is rendered by a full recursive encode
pass (`serialize_map_key` calls `to_string(&key)`), each value likewise
(`serialize_map_value`), the pairs are keyed by the rendered key in a
`BTreeMap`, and `finalize_encode` emits `d`, the sorted pairs verbatim,
then `e` (bytes 100 = `d`, 108 = `l`, 105 = `i`, 101 = `e`). -/

mutual

def encodeValue : Value → List Nat
  | .vstr s => encodeStrBytes s
  | .vint n => 105 :: (intDecimal n ++ [101])
  | .vlist xs => 108 :: (encodeVList xs ++ [101])
  | .vdict es =>
    100 :: (((dictBuild (encodeEntries es)).map fun kv => kv.1 ++ kv.2).flatten ++ [101])

def encodeVList : List Value → List Nat
  | [] => []
  | v :: vs => encodeValue v ++ encodeVList vs

def encodeEntries : List (List Nat × Value) → List (List Nat × List Nat)
  | [] => []
  | (k, v) :: es => (encodeStrBytes k, encodeValue v) :: encodeEntries es

end

/-- `to_vec`: encode a value to its byte output. -/
def to_vec (v : Value) : List Nat :=
  encodeValue v

/-! ## Serialization errors and `serialize_u64` -/

inductive SErr where
  | unsupportedType : SErr
  | numberOutOfRange (v : Nat) : SErr
deriving DecidableEq

/-- `Serializer::serialize_u64`: an unsigned value above `i64::MAX` fails
with `NumberOutOfRange` before anything is written; otherwise the integer
is emitted as `i<decimal>e`. -/
def serialize_u64 (v : Nat) : Except SErr (List Nat) :=
  if 2 ^ 63 - 1 < v then .error (.numberOutOfRange v)
  else .ok (105 :: (natDecimal v ++ [101]))

/-! ## Byte sources (`read.rs`)

The `Read` trait supplies `next_char`, `peek_char`, `position`. We model a
byte source as a state type `σ` with pure step functions (the underlying
iterator of `IteratorRead` is modelled as the list of bytes it will yield;
I/O errors are not needed by any claim). -/

structure Rd (σ : Type) where
  next : σ → Option (Nat × σ)
  peek : σ → Option Nat
  position : σ → Nat

/-- `SliceRead`: an in-memory byte buffer plus a cursor. -/
structure SliceRead where
  slice : List Nat
  pos : Nat
deriving DecidableEq

/-- `SliceRead::peek_char`: `None` at the end of the slice, otherwise the
byte at the cursor. -/
def SliceRead.peek_char (s : SliceRead) : Option Nat :=
  if s.pos = s.slice.length then none else s.slice.get? s.pos

/-- `SliceRead::next_char`: peek, and on success advance the cursor. -/
def SliceRead.next_char (s : SliceRead) : Option (Nat × SliceRead) :=
  match s.peek_char with
  | some ch => some (ch, ⟨s.slice, s.pos + 1⟩)
  | none => none

/-- `SliceRead::position`: the cursor. -/
def SliceRead.position (s : SliceRead) : Nat :=
  s.pos

def RdSlice : Rd SliceRead :=
  ⟨SliceRead.next_char, SliceRead.peek_char, SliceRead.position⟩

/-- `StringRead`: delegates every operation to a `SliceRead` over the
string's UTF-8 bytes. -/
structure StringRead where
  slice_read : SliceRead
deriving DecidableEq

def StringRead.peek_char (s : StringRead) : Option Nat :=
  s.slice_read.peek_char

def StringRead.next_char (s : StringRead) : Option (Nat × StringRead) :=
  match s.slice_read.next_char with
  | some (ch, sr) => some (ch, ⟨sr⟩)
  | none => none

def StringRead.position (s : StringRead) : Nat :=
  s.slice_read.position

def RdString : Rd StringRead :=
  ⟨StringRead.next_char, StringRead.peek_char, StringRead.position⟩

/-- `IteratorRead`: a fallible byte iterator (modelled by the list of bytes
it will still yield) plus the `ch` cell holding the most recently consumed
byte. The `col` field models the position counter; the counter itself lives
in serde's `LineColIterator`, outside this repository's sources, and is
modelled from the spec: the stream source "tracks position by counting
bytes consumed". -/
structure IteratorRead where
  rem : List Nat
  ch : Option Nat
  col : Nat
deriving DecidableEq

/-- `IteratorRead::next_char`: pull a byte from the iterator and remember it
in `ch`. -/
def IteratorRead.next_char (s : IteratorRead) : Option (Nat × IteratorRead) :=
  match s.rem with
  | [] => none
  | b :: r => some (b, ⟨r, some b, s.col + 1⟩)

/-- `IteratorRead::peek_char`: returns the `ch` cell — the most recently
consumed byte, not the upcoming one. -/
def IteratorRead.peek_char (s : IteratorRead) : Option Nat :=
  s.ch

/-- `IteratorRead::position`: the byte counter (see the structure's note). -/
def IteratorRead.position (s : IteratorRead) : Nat :=
  s.col

def RdIter : Rd IteratorRead :=
  ⟨IteratorRead.next_char, IteratorRead.peek_char, IteratorRead.position⟩

/-- Proof-side reader: the remaining byte list itself as state. Its
behaviour is the remaining-suffix view of `SliceRead`: see
`sliceRead_peek_view` and `sliceRead_next_view`. -/
def RdList : Rd (List Nat) :=
  ⟨fun l => match l with | [] => none | b :: r => some (b, r),
   fun l => l.head?,
   fun _ => 0⟩

/-- `SliceRead.peek_char` observes exactly the head of the remaining
suffix `slice.drop pos`. -/
theorem sliceRead_peek_view (s : SliceRead) :
    s.peek_char = (s.slice.drop s.pos).head? := by
  unfold SliceRead.peek_char
  rcases s with ⟨sl, p⟩
  simp only
  by_cases h : p = sl.length
  · subst h
    simp
  · rw [if_neg h]
    rw [List.head?_drop]
    simp [List.get?_eq_getElem?]

/-- `SliceRead.next_char` behaves as uncons of the remaining suffix, with
the cursor advancing by one. -/
theorem sliceRead_next_view (s : SliceRead) :
    s.next_char =
      match s.slice.drop s.pos with
      | [] => none
      | b :: _ => some (b, ⟨s.slice, s.pos + 1⟩) := by
  unfold SliceRead.next_char
  rw [sliceRead_peek_view]
  rcases h : s.slice.drop s.pos with _ | ⟨b, t⟩ <;> simp [h]

/-! ## Decode errors and the decoder (`de.rs`)

The decoder is a fuel-indexed recursive-descent parser, generic in the byte
source. Fuel only bounds recursion depth; `out_of_fuel` never occurs when
the fuel exceeds the input length, and the entry points pass
`input length + 1`. -/

inductive DErr where
  | unexpectedToken (ch : Nat)
  | unexpectedEOF
  | unexpectedTrailingChars
  | utf8Error
  | invalidType
  | outOfFuel
deriving DecidableEq

/-- Read exactly `n` raw bytes (the payload loop of `parse_string`). -/
def readNG {σ : Type} (r : Rd σ) : Nat → σ → Except DErr (List Nat × σ)
  | 0, s => .ok ([], s)
  | n + 1, s =>
    match r.next s with
    | none => .error .unexpectedEOF
    | some (b, s1) =>
      match readNG r n s1 with
      | .error e => .error e
      | .ok (bs, s2) => .ok (b :: bs, s2)

/-- `Deserializer::read_digits_to`: accumulate decimal digits into an `i64`
(wrapping) until the delimiter; a non-digit, non-delimiter byte is
`UnexpectedToken`, end of input is `UnexpectedEOF`. -/
def readDigitsToG {σ : Type} (r : Rd σ) (delim : Nat) :
    Nat → Int → σ → Except DErr (Int × σ)
  | 0, _, _ => .error .outOfFuel
  | f + 1, acc, s =>
    match r.next s with
    | none => .error .unexpectedEOF
    | some (ch, s1) =>
      if ch = delim then .ok (acc, s1)
      else if 48 ≤ ch ∧ ch ≤ 57 then
        readDigitsToG r delim f (wrap64 (10 * acc + ((ch : Int) - 48))) s1
      else .error (.unexpectedToken ch)

/-- `Deserializer::parse_int` (called after the opening `i`): optional `-`
sign, then either the single digit `0` followed by `e`, or digits
accumulated to `e`; `-0`, a leading `0` with more digits, and an immediate
`e` are `UnexpectedToken` errors. The accumulated value is multiplied by
the sign with `i64` wrapping. -/
def parseIntG {σ : Type} (r : Rd σ) (fuel : Nat) (s : σ) : Except DErr (Int × σ) :=
  match r.next s with
  | none => .error .unexpectedEOF
  | some (ch, s1) =>
    let sign : Int := if ch = 45 then -1 else 1
    let afterSign : Except DErr (Nat × σ) :=
      if ch = 45 then
        match r.next s1 with
        | none => .error .unexpectedEOF
        | some (c2, s2) => .ok (c2, s2)
      else .ok (ch, s1)
    match afterSign with
    | .error e => .error e
    | .ok (initnum, st) =>
      if initnum = 48 then
        if sign = -1 then .error (.unexpectedToken 48)
        else
          match r.next st with
          | none => .error .unexpectedEOF
          | some (endch, st2) =>
            if endch = 101 then .ok (0, st2) else .error (.unexpectedToken endch)
      else if initnum = 101 then .error (.unexpectedToken 101)
      else
        match readDigitsToG r 101 fuel ((initnum : Int) - 48) st with
        | .error e => .error e
        | .ok (n, st2) => .ok (wrap64 (n * sign), st2)

/-- `Deserializer::parse_string` (called with the first length digit already
read): a leading `0` must be followed directly by `:` and yields the empty
string; otherwise the length digits are accumulated to `:`, exactly that
many payload bytes are read, and the payload must be valid UTF-8. -/
def parseStringG {σ : Type} (r : Rd σ) (fuel : Nat) (initDigit : Nat) (s : σ) :
    Except DErr (List Nat × σ) :=
  if initDigit = 48 then
    match r.next s with
    | none => .error .unexpectedEOF
    | some (c, s1) =>
      if c = 58 then .ok ([], s1) else .error (.unexpectedToken c)
  else
    match readDigitsToG r 58 fuel ((initDigit : Int) - 48) s with
    | .error e => .error e
    | .ok (len, s1) =>
      match readNG r (usizeOfI64 len) s1 with
      | .error e => .error e
      | .ok (buf, s2) =>
        if utf8Valid buf then .ok (buf, s2) else .error .utf8Error

mutual

/-- `Deserializer::parse_next`: dispatch on one byte — `d` begins a dict,
`l` a list, `i` an integer, a decimal digit a string; anything else is
`UnexpectedToken`. -/
def parseValueG {σ : Type} (r : Rd σ) : Nat → σ → Except DErr (Value × σ)
  | 0, _ => .error .outOfFuel
  | f + 1, s =>
    match r.next s with
    | none => .error .unexpectedEOF
    | some (ch, s1) =>
      if ch = 100 then
        match parseDictG r f s1 with
        | .error e => .error e
        | .ok (es, s2) => .ok (.vdict es, s2)
      else if ch = 108 then
        match parseListG r f s1 with
        | .error e => .error e
        | .ok (xs, s2) => .ok (.vlist xs, s2)
      else if ch = 105 then
        match parseIntG r f s1 with
        | .error e => .error e
        | .ok (n, s2) => .ok (.vint n, s2)
      else if 48 ≤ ch ∧ ch ≤ 57 then
        match parseStringG r f ch s1 with
        | .error e => .error e
        | .ok (bs, s2) => .ok (.vstr bs, s2)
      else .error (.unexpectedToken ch)

/-- The `SeqVisitor` loop driving a sequence deserializer: `visit` peeks —
on `e` it reports the end (and the deserializer's final `end` call peeks
the same `e` again, consuming nothing); otherwise one element is decoded
recursively. End of input while peeking is `UnexpectedEOF`. -/
def parseListG {σ : Type} (r : Rd σ) : Nat → σ → Except DErr (List Value × σ)
  | 0, _ => .error .outOfFuel
  | f + 1, s =>
    match r.peek s with
    | none => .error .unexpectedEOF
    | some ch =>
      if ch = 101 then .ok ([], s)
      else
        match parseValueG r f s with
        | .error e => .error e
        | .ok (v, s1) =>
          match parseListG r f s1 with
          | .error e => .error e
          | .ok (vs, s2) => .ok (v :: vs, s2)

/-- The `MapVisitor` loop driving a map deserializer: `visit_key` peeks — on
`e` it reports the end and `MapVisitor::end` then consumes one byte which
must be `e`; on a digit the key is decoded by a full `deserialize` dispatch
(a `String` target accepts only a string value); any other byte is
`UnexpectedToken`, end of input is `UnexpectedEOF`. Each key is followed by
a recursively decoded value. -/
def parseDictG {σ : Type} (r : Rd σ) : Nat → σ → Except DErr (List (List Nat × Value) × σ)
  | 0, _ => .error .outOfFuel
  | f + 1, s =>
    match r.peek s with
    | none => .error .unexpectedEOF
    | some ch =>
      if ch = 101 then
        match r.next s with
        | none => .error .unexpectedEOF
        | some (c, s1) =>
          if c = 101 then .ok ([], s1) else .error (.unexpectedToken c)
      else if 48 ≤ ch ∧ ch ≤ 57 then
        match parseValueG r f s with
        | .error e => .error e
        | .ok (k, s1) =>
          match k with
          | .vstr kb =>
            match parseValueG r f s1 with
            | .error e => .error e
            | .ok (v, s2) =>
              match parseDictG r f s2 with
              | .error e => .error e
              | .ok (es, s3) => .ok ((kb, v) :: es, s3)
          | _ => .error .invalidType
      else .error (.unexpectedToken ch)

end

/-- `Deserializer::end`: after the root value, peek — the container-close
marker `e` and end of input are accepted, anything else is
`UnexpectedTrailingChars`. -/
def deEnd {σ : Type} (r : Rd σ) (s : σ) : Except DErr Unit :=
  match r.peek s with
  | none => .ok ()
  | some ch => if ch = 101 then .ok () else .error .unexpectedTrailingChars

/-- `from_read`: decode exactly one root value, then run the trailing-bytes
check. -/
def fromRead {σ : Type} (r : Rd σ) (fuel : Nat) (s : σ) : Except DErr Value :=
  match parseValueG r fuel s with
  | .error e => .error e
  | .ok (v, s1) =>
    match deEnd r s1 with
    | .error e => .error e
    | .ok _ => .ok v

/-- `from_slice`: decode from an in-memory byte slice via `SliceRead`. -/
def from_slice (bs : List Nat) : Except DErr Value :=
  fromRead RdSlice (bs.length + 1) ⟨bs, 0⟩

/-- `from_string`: decode from the UTF-8 bytes of an owned string via
`StringRead`. -/
def from_string (bs : List Nat) : Except DErr Value :=
  fromRead RdString (bs.length + 1) ⟨⟨bs, 0⟩⟩

/-- `from_reader`/`from_iter`: decode from a byte stream via
`IteratorRead`, whose `ch` cell starts empty and whose counter starts at
zero. -/
def from_reader (bs : List Nat) : Except DErr Value :=
  fromRead RdIter (bs.length + 1) ⟨bs, none, 0⟩

end Bencode


namespace Bencode

/-! ## Arithmetic facts about `wrap64` and digit accumulation -/

theorem wrap64_fixed {x : Int} (h1 : -(2 ^ 63) ≤ x) (h2 : x < 2 ^ 63) :
    wrap64 x = x := by
  unfold wrap64
  omega

theorem wrap64_congr {x y : Int} (h : (x + 2 ^ 63) % 2 ^ 64 = (y + 2 ^ 63) % 2 ^ 64) :
    wrap64 x = wrap64 y := by
  unfold wrap64
  omega

theorem wrap64_mul_add (a c : Int) :
    wrap64 (10 * wrap64 a + c) = wrap64 (10 * a + c) := by
  unfold wrap64
  omega

/-- Exact (unwrapped) decimal accumulation of digit bytes onto an
accumulator. -/
def decAcc (a : Int) (ds : List Nat) : Int :=
  ds.foldl (fun (x : Int) (d : Nat) => 10 * x + ((d : Int) - 48)) a

theorem decAcc_nil (a : Int) : decAcc a [] = a := rfl

theorem decAcc_cons (a : Int) (d : Nat) (ds : List Nat) :
    decAcc a (d :: ds) = decAcc (10 * a + ((d : Int) - 48)) ds := rfl

theorem decAcc_append (a : Int) (ds1 ds2 : List Nat) :
    decAcc a (ds1 ++ ds2) = decAcc (decAcc a ds1) ds2 := by
  unfold decAcc
  exact List.foldl_append _ _ _ _

theorem decAcc_linear (ds : List Nat) :
    ∀ a : Int, decAcc a ds = a * 10 ^ ds.length + decAcc 0 ds := by
  induction ds with
  | nil => intro a; simp [decAcc_nil]
  | cons d ds ih =>
    intro a
    rw [decAcc_cons, decAcc_cons, ih, ih (10 * 0 + ((d : Int) - 48))]
    simp only [List.length_cons, pow_succ]
    ring

/-- The wrapped decimal accumulation performed by `read_digits_to`. -/
def wrapAcc (a : Int) (ds : List Nat) : Int :=
  ds.foldl (fun (x : Int) (d : Nat) => wrap64 (10 * x + ((d : Int) - 48))) a

theorem wrapAcc_nil (a : Int) : wrapAcc a [] = a := rfl

theorem wrapAcc_cons (a : Int) (d : Nat) (ds : List Nat) :
    wrapAcc a (d :: ds) = wrapAcc (wrap64 (10 * a + ((d : Int) - 48))) ds := rfl

/-- Iterated wrapping agrees with a single final wrap of the exact value. -/
theorem wrapAcc_eq_wrap_decAcc (ds : List Nat) :
    ∀ a : Int, wrapAcc (wrap64 a) ds = wrap64 (decAcc a ds) := by
  induction ds with
  | nil => intro a; rw [wrapAcc_nil, decAcc_nil]
  | cons d ds ih =>
    intro a
    rw [wrapAcc_cons, decAcc_cons, wrap64_mul_add, ih]

/-! ## Facts about decimal rendering -/

theorem natDigits_all_digits (m : Nat) :
    ∀ d ∈ natDigits m, 48 ≤ d ∧ d ≤ 57 := by
  induction m using Nat.strong_induction_on with
  | _ m ih =>
    match m with
    | 0 => intro d hd; simp [natDigits] at hd
    | n + 1 =>
      intro d hd
      rw [natDigits] at hd
      rcases List.mem_append.mp hd with h | h
      · exact ih ((n + 1) / 10) (Nat.div_lt_self (Nat.succ_pos _) (by norm_num)) d h
      · have : d = 48 + (n + 1) % 10 := by simpa using h
        have hm : (n + 1) % 10 < 10 := Nat.mod_lt _ (by norm_num)
        omega

theorem natDigits_ne_nil {m : Nat} (h : 0 < m) : natDigits m ≠ [] := by
  match m with
  | n + 1 =>
    rw [natDigits]
    simp

theorem natDigits_decAcc (m : Nat) :
    decAcc 0 (natDigits m) = (m : Int) := by
  induction m using Nat.strong_induction_on with
  | _ m ih =>
    match m with
    | 0 => simp [natDigits, decAcc_nil]
    | n + 1 =>
      rw [natDigits, decAcc_append, ih ((n + 1) / 10) (Nat.div_lt_self (Nat.succ_pos _) (by norm_num))]
      show decAcc _ [_] = _
      rw [decAcc_cons, decAcc_nil]
      have : ((n : Int) + 1) = 10 * (((n + 1 : Nat) / 10 : Nat) : Int) + (((n + 1 : Nat) % 10 : Nat) : Int) := by
        have h10 : (n + 1 : Nat) = 10 * ((n + 1) / 10) + (n + 1) % 10 :=
          (Nat.div_add_mod _ _).symm
        push_cast
        omega
      push_cast
      omega

/-- The leading digit of a positive number's decimal rendering is nonzero. -/
theorem natDigits_head_pos (m : Nat) (h : 0 < m) :
    ∀ d, (natDigits m).head? = some d → 49 ≤ d ∧ d ≤ 57 := by
  induction m using Nat.strong_induction_on with
  | _ m ih =>
    match m with
    | n + 1 =>
      intro d hd
      rw [natDigits] at hd
      by_cases hq : (n + 1) / 10 = 0
      · rw [hq] at hd
        simp [natDigits] at hd
        have hm : (n + 1) % 10 < 10 := Nat.mod_lt _ (by norm_num)
        have hlt : n + 1 < 10 := by omega
        have hmod : (n + 1) % 10 = n + 1 := Nat.mod_eq_of_lt hlt
        omega
      · have hne : natDigits ((n + 1) / 10) ≠ [] := natDigits_ne_nil (Nat.pos_of_ne_zero hq)
        rw [List.head?_append_of_ne_nil _ hne] at hd
        exact ih ((n + 1) / 10) (Nat.div_lt_self (Nat.succ_pos _) (by norm_num))
          (Nat.pos_of_ne_zero hq) d hd

end Bencode

namespace Bencode

/-! ## Reader morphisms

A morphism between byte-source states: a map `φ` that commutes with `next`
and preserves `peek`. The parser, being generic in the source, transports
along any such morphism; we use this to move between the faithful
`SliceRead` state and its remaining-suffix view `RdList`. -/

def RdHom {σ τ : Type} (r1 : Rd σ) (r2 : Rd τ) (φ : σ → τ) : Prop :=
  (∀ s, r2.next (φ s) = Option.map (fun p => (p.1, φ p.2)) (r1.next s)) ∧
  (∀ s, r2.peek (φ s) = r1.peek s)

/-- Transport of a parse result along a state map. -/
def emap {α σ τ : Type} (φ : σ → τ) :
    Except DErr (α × σ) → Except DErr (α × τ)
  | .error e => .error e
  | .ok (a, s) => .ok (a, φ s)

/-- The remaining-suffix view of a `SliceRead` state. -/
def sliceView (s : SliceRead) : List Nat :=
  s.slice.drop s.pos

theorem sliceView_hom : RdHom RdSlice RdList sliceView := by
  constructor
  · intro s
    show RdList.next (sliceView s) = Option.map _ s.next_char
    rw [sliceRead_next_view]
    unfold sliceView
    rcases h : s.slice.drop s.pos with _ | ⟨b, t⟩
    · simp [RdList, h]
    · have ht : s.slice.drop (s.pos + 1) = t := by
        rw [← List.tail_drop, h]
        rfl
      simp [RdList, h, ht]
  · intro s
    show RdList.peek (sliceView s) = s.peek_char
    rw [sliceRead_peek_view]
    rfl

section Hom

variable {σ τ : Type} {r1 : Rd σ} {r2 : Rd τ} {φ : σ → τ}

theorem emap_error (e : DErr) {α : Type} :
    @emap α σ τ φ (.error e) = .error e := rfl

theorem emap_ok {α : Type} (a : α) (t : σ) :
    emap φ (.ok (a, t)) = .ok (a, φ t) := rfl

theorem readNG_hom (h : RdHom r1 r2 φ) :
    ∀ (n : Nat) (s : σ), readNG r2 n (φ s) = emap φ (readNG r1 n s) := by
  intro n
  induction n with
  | zero => intro s; rfl
  | succ n ih =>
    intro s
    rcases hn : r1.next s with _ | ⟨b, s1⟩ <;>
      simp only [readNG, h.1 s, hn, Option.map_some', Option.map_none']
    · rfl
    · rw [ih s1]
      rcases hr : readNG r1 n s1 with e | ⟨bs, s2⟩ <;>
        simp only [emap_error, emap_ok]

theorem readDigitsToG_hom (h : RdHom r1 r2 φ) (delim : Nat) :
    ∀ (f : Nat) (acc : Int) (s : σ),
      readDigitsToG r2 delim f acc (φ s) = emap φ (readDigitsToG r1 delim f acc s) := by
  intro f
  induction f with
  | zero => intro acc s; rfl
  | succ f ih =>
    intro acc s
    rcases hn : r1.next s with _ | ⟨ch, s1⟩ <;>
      simp only [readDigitsToG, h.1 s, hn, Option.map_some', Option.map_none']
    · rfl
    · by_cases hd : ch = delim
      · simp only [if_pos hd]
        rfl
      · rw [if_neg hd, if_neg hd]
        by_cases hdig : 48 ≤ ch ∧ ch ≤ 57
        · rw [if_pos hdig, if_pos hdig, ih]
        · rw [if_neg hdig, if_neg hdig]
          rfl

theorem parseIntG_hom (h : RdHom r1 r2 φ) (f : Nat) (s : σ) :
    parseIntG r2 f (φ s) = emap φ (parseIntG r1 f s) := by
  rcases hn : r1.next s with _ | ⟨ch, s1⟩ <;>
    simp only [parseIntG, h.1 s, hn, Option.map_some', Option.map_none']
  · rfl
  · by_cases hneg : ch = 45
    · simp only [if_pos hneg]
      rcases hn2 : r1.next s1 with _ | ⟨c2, s2⟩ <;>
        simp only [h.1 s1, hn2, Option.map_some', Option.map_none']
      · rfl
      · by_cases h48 : c2 = 48
        · simp only [if_pos h48, if_pos rfl]
          rfl
        · simp only [if_neg h48]
          by_cases he : c2 = 101
          · simp only [if_pos he]
            rfl
          · simp only [if_neg he]
            rw [readDigitsToG_hom h 101 f _ s2]
            rcases hr : readDigitsToG r1 101 f ((c2 : Int) - 48) s2 with e | ⟨n, st2⟩ <;>
              simp only [emap_error, emap_ok]
    · simp only [if_neg hneg]
      by_cases h48 : ch = 48
      · simp only [if_pos h48, if_neg (by norm_num : ¬(1 : Int) = -1)]
        rcases hn3 : r1.next s1 with _ | ⟨endch, st2⟩ <;>
          simp only [h.1 s1, hn3, Option.map_some', Option.map_none']
        · rfl
        · by_cases he : endch = 101
          · simp only [if_pos he]
            rfl
          · simp only [if_neg he]
            rfl
      · simp only [if_neg h48]
        by_cases he : ch = 101
        · simp only [if_pos he]
          rfl
        · simp only [if_neg he]
          rw [readDigitsToG_hom h 101 f _ s1]
          rcases hr : readDigitsToG r1 101 f ((ch : Int) - 48) s1 with e | ⟨n, st2⟩ <;>
            simp only [emap_error, emap_ok]

theorem parseStringG_hom (h : RdHom r1 r2 φ) (f : Nat) (initDigit : Nat) (s : σ) :
    parseStringG r2 f initDigit (φ s) = emap φ (parseStringG r1 f initDigit s) := by
  by_cases h0 : initDigit = 48
  · simp only [parseStringG, if_pos h0]
    rcases hn : r1.next s with _ | ⟨c, s1⟩ <;>
      simp only [h.1 s, hn, Option.map_some', Option.map_none']
    · rfl
    · by_cases hc : c = 58
      · simp only [if_pos hc]
        rfl
      · simp only [if_neg hc]
        rfl
  · simp only [parseStringG, if_neg h0]
    rw [readDigitsToG_hom h 58 f _ s]
    rcases hrd : readDigitsToG r1 58 f ((initDigit : Int) - 48) s with e | ⟨len, s1⟩ <;>
      simp only [emap_error, emap_ok]
    rw [readNG_hom h]
    rcases hrn : readNG r1 (usizeOfI64 len) s1 with e | ⟨buf, s2⟩ <;>
      simp only [emap_error, emap_ok]
    by_cases hu : utf8Valid buf
    · simp only [if_pos hu]
      rfl
    · simp only [if_neg hu]
      rfl

/-- The recursive-descent parser transports along any reader morphism. -/
theorem parseG_hom (h : RdHom r1 r2 φ) :
    ∀ f : Nat,
      (∀ s, parseValueG r2 f (φ s) = emap φ (parseValueG r1 f s)) ∧
      (∀ s, parseListG r2 f (φ s) = emap φ (parseListG r1 f s)) ∧
      (∀ s, parseDictG r2 f (φ s) = emap φ (parseDictG r1 f s)) := by
  intro f
  induction f with
  | zero => exact ⟨fun s => rfl, fun s => rfl, fun s => rfl⟩
  | succ f ih =>
    obtain ⟨ihv, ihl, ihd⟩ := ih
    refine ⟨?_, ?_, ?_⟩
    · intro s
      rcases hn : r1.next s with _ | ⟨ch, s1⟩ <;>
        simp only [parseValueG, h.1 s, hn, Option.map_some', Option.map_none']
      · rfl
      · by_cases hd : ch = 100
        · simp only [if_pos hd]
          rw [ihd s1]
          rcases hr : parseDictG r1 f s1 with e | ⟨es, s2⟩ <;>
            simp only [emap_error, emap_ok]
        · simp only [if_neg hd]
          by_cases hl : ch = 108
          · simp only [if_pos hl]
            rw [ihl s1]
            rcases hr : parseListG r1 f s1 with e | ⟨xs, s2⟩ <;>
              simp only [emap_error, emap_ok]
          · simp only [if_neg hl]
            by_cases hi : ch = 105
            · simp only [if_pos hi]
              rw [parseIntG_hom h f s1]
              rcases hr : parseIntG r1 f s1 with e | ⟨n, s2⟩ <;>
                simp only [emap_error, emap_ok]
            · simp only [if_neg hi]
              by_cases hdig : 48 ≤ ch ∧ ch ≤ 57
              · simp only [if_pos hdig]
                rw [parseStringG_hom h f ch s1]
                rcases hr : parseStringG r1 f ch s1 with e | ⟨bs, s2⟩ <;>
                  simp only [emap_error, emap_ok]
              · simp only [if_neg hdig]
                rfl
    · intro s
      rcases hp : r1.peek s with _ | ch <;>
        simp only [parseListG, h.2 s, hp]
      · rfl
      · by_cases he : ch = 101
        · simp only [if_pos he]
          rfl
        · simp only [if_neg he]
          rw [ihv s]
          rcases hv : parseValueG r1 f s with e | ⟨v, s1⟩ <;>
            simp only [emap_error, emap_ok]
          rw [ihl s1]
          rcases hl2 : parseListG r1 f s1 with e | ⟨vs, s2⟩ <;>
            simp only [emap_error, emap_ok]
    · intro s
      rcases hp : r1.peek s with _ | ch <;>
        simp only [parseDictG, h.2 s, hp]
      · rfl
      · by_cases he : ch = 101
        · simp only [if_pos he, h.1 s]
          rcases hn : r1.next s with _ | ⟨c, s1⟩ <;>
            simp only [Option.map_some', Option.map_none']
          · rfl
          · by_cases hc : c = 101
            · simp only [if_pos hc]
              rfl
            · simp only [if_neg hc]
              rfl
        · simp only [if_neg he]
          by_cases hdig : 48 ≤ ch ∧ ch ≤ 57
          · simp only [if_pos hdig]
            rw [ihv s]
            rcases hk : parseValueG r1 f s with e | ⟨k, s1⟩ <;>
              simp only [emap_error, emap_ok]
            rcases k with kb | n | xs | es
            · rw [ihv s1]
              rcases hv : parseValueG r1 f s1 with e | ⟨v, s2⟩ <;>
                simp only [emap_error, emap_ok]
              rw [ihd s2]
              rcases hr : parseDictG r1 f s2 with e | ⟨es, s3⟩ <;>
                simp only [emap_error, emap_ok]
            · rfl
            · rfl
            · rfl
          · simp only [if_neg hdig]
            rfl

end Hom

/-! ## Exact parsing of well-formed string tokens (over the list view) -/

theorem RdList_next_cons (b : Nat) (r : List Nat) :
    RdList.next (b :: r) = some (b, r) := rfl

theorem RdList_next_nil : RdList.next [] = none := rfl

theorem readNG_exact (p rest : List Nat) :
    readNG RdList p.length (p ++ rest) = .ok (p, rest) := by
  induction p with
  | nil => rfl
  | cons b p ih =>
    simp only [List.length_cons, List.cons_append, readNG, RdList_next_cons, ih]

theorem readDigitsToG_exact (delim : Nat) (hdelim : ¬(48 ≤ delim ∧ delim ≤ 57)) :
    ∀ (ds : List Nat), (∀ d ∈ ds, 48 ≤ d ∧ d ≤ 57) →
      ∀ (f : Nat) (acc : Int) (rest : List Nat), ds.length + 1 ≤ f →
        readDigitsToG RdList delim f acc (ds ++ delim :: rest) =
          .ok (wrapAcc acc ds, rest) := by
  intro ds
  induction ds with
  | nil =>
    intro _ f acc rest hf
    rcases f with _ | f
    · omega
    · simp [List.nil_append, readDigitsToG, RdList_next_cons, wrapAcc_nil]
  | cons d ds ih =>
    intro hdig f acc rest hf
    rcases f with _ | f
    · simp at hf
    · have hd : 48 ≤ d ∧ d ≤ 57 := hdig d (List.mem_cons_self d ds)
      have hne : ¬d = delim := by
        intro hcontra
        exact hdelim (hcontra ▸ hd)
      simp only [List.cons_append, readDigitsToG, RdList_next_cons, if_neg hne, if_pos hd]
      rw [ih (fun x hx => hdig x (List.mem_cons_of_mem d hx)) f _ rest (by simpa using hf)]
      rw [wrapAcc_cons]

theorem usizeOfI64_ofNat (n : Nat) (h : n < 2 ^ 64) : usizeOfI64 (n : Int) = n := by
  unfold usizeOfI64
  omega

/-- Parsing the canonical encoding of a valid-UTF-8 string reads exactly its
payload bytes and leaves the trailing bytes untouched (over the list
view). -/
theorem parseValueG_string_exact (p rest : List Nat) (f : Nat)
    (hu : utf8Valid p = true) (hlen : p.length < 2 ^ 63)
    (hf : (natDecimal p.length).length ≤ f) :
    parseValueG RdList (f + 1) (encodeStrBytes p ++ rest) = .ok (.vstr p, rest) := by
  by_cases hp0 : p.length = 0
  · have hpnil : p = [] := List.length_eq_zero.mp hp0
    subst hpnil
    simp [encodeStrBytes, natDecimal, parseValueG, parseStringG, RdList]
  · have hpos : 0 < p.length := Nat.pos_of_ne_zero hp0
    have hdec : natDecimal p.length = natDigits p.length := by
      unfold natDecimal
      rw [if_neg hp0]
    have hne : natDigits p.length ≠ [] := natDigits_ne_nil hpos
    obtain ⟨d0, ds, hsplit⟩ := List.exists_cons_of_ne_nil hne
    have hhead : (natDigits p.length).head? = some d0 := by
      rw [hsplit]
      rfl
    have hd0 : 49 ≤ d0 ∧ d0 ≤ 57 := natDigits_head_pos p.length hpos d0 hhead
    have hds : ∀ d ∈ ds, 48 ≤ d ∧ d ≤ 57 := by
      intro d hdmem
      exact natDigits_all_digits p.length d (hsplit ▸ List.mem_cons_of_mem d0 hdmem)
    have henc : encodeStrBytes p ++ rest = d0 :: (ds ++ 58 :: (p ++ rest)) := by
      unfold encodeStrBytes
      rw [hdec, hsplit]
      simp
    rw [henc]
    have hd100 : ¬d0 = 100 := by omega
    have hd108 : ¬d0 = 108 := by omega
    have hd105 : ¬d0 = 105 := by omega
    have hddig : 48 ≤ d0 ∧ d0 ≤ 57 := ⟨by omega, hd0.2⟩
    have hd48 : ¬d0 = 48 := by omega
    simp only [parseValueG, RdList_next_cons, if_neg hd100, if_neg hd108, if_neg hd105,
      if_pos hddig]
    rw [parseStringG]
    rw [if_neg hd48]
    have hfuel : ds.length + 1 ≤ f := by
      have : (natDecimal p.length).length = ds.length + 1 := by
        rw [hdec, hsplit]
        simp
      omega
    rw [readDigitsToG_exact 58 (by omega) ds hds f ((d0 : Int) - 48) (p ++ rest) hfuel]
    have hacc : wrapAcc ((d0 : Int) - 48) ds = (p.length : Int) := by
      have hfix : ((d0 : Int) - 48) = wrap64 ((d0 : Int) - 48) := by
        rw [wrap64_fixed]
        · omega
        · have : (d0 : Int) ≤ 57 := by exact_mod_cast hd0.2
          have h63 : (9 : Int) < 2 ^ 63 := by norm_num
          omega
      rw [hfix, wrapAcc_eq_wrap_decAcc]
      have hval : decAcc ((d0 : Int) - 48) ds = (p.length : Int) := by
        have h1 : decAcc 0 (natDigits p.length) = (p.length : Int) := natDigits_decAcc _
        rw [hsplit, decAcc_cons] at h1
        simpa using h1
      rw [hval, wrap64_fixed]
      · omega
      · exact_mod_cast hlen
    rw [hacc]
    have husize : usizeOfI64 ((p.length : Nat) : Int) = p.length := by
      apply usizeOfI64_ofNat
      have : (2 : Nat) ^ 63 < 2 ^ 64 := by norm_num
      omega
    simp only [husize, readNG_exact p rest, if_pos hu]


end Bencode

namespace Bencode

/-! ## Sortedness of the canonicalization buffer -/

/-- Strict ascending order between adjacent buffer entries: the first key is
byte-lexicographically below the second. -/
def keyLt (x y : List Nat × List Nat) : Prop :=
  bytesLt x.1 y.1 = true

theorem bytesLt_of_not_lt_of_ne :
    ∀ {a b : List Nat}, bytesLt a b = false → a ≠ b → bytesLt b a = true := by
  intro a
  induction a with
  | nil =>
    intro b hlt hne
    cases b with
    | nil => exact absurd rfl hne
    | cons y ys => simp [bytesLt] at hlt
  | cons x xs ih =>
    intro b hlt hne
    cases b with
    | nil => rfl
    | cons y ys =>
      rw [bytesLt] at hlt
      rw [bytesLt]
      by_cases hxy : x < y
      · rw [if_pos hxy] at hlt
        exact absurd hlt (by simp)
      · rw [if_neg hxy] at hlt
        by_cases hyx : y < x
        · rw [if_pos hyx]
        · rw [if_neg hyx] at hlt
          rw [if_neg hyx, if_neg hxy]
          have hx : x = y := by omega
          have hxs : xs ≠ ys := by
            intro hcontra
            exact hne (by rw [hx, hcontra])
          exact ih hlt hxs

theorem btInsert_head_cases :
    ∀ (l : List (List Nat × List Nat)) (k v : List Nat),
      (btInsert l k v).head? = some (k, v) ∨ (btInsert l k v).head? = l.head? := by
  intro l k v
  cases l with
  | nil => left; rfl
  | cons kv1 rest =>
    rcases kv1 with ⟨k1, v1⟩
    rw [btInsert]
    by_cases h1 : bytesLt k k1
    · left
      rw [if_pos h1]
      rfl
    · rw [if_neg h1]
      by_cases h2 : k = k1
      · left
        rw [if_pos h2]
        rfl
      · right
        rw [if_neg h2]
        rfl

theorem btInsert_chain (k v : List Nat) :
    ∀ l : List (List Nat × List Nat),
      List.Chain' keyLt l → List.Chain' keyLt (btInsert l k v) := by
  intro l
  induction l with
  | nil =>
    intro _
    simp [btInsert]
  | cons kv1 rest ih =>
    intro hchain
    rcases kv1 with ⟨k1, v1⟩
    obtain ⟨hrel, hrest⟩ := List.chain'_cons'.mp hchain
    rw [btInsert]
    by_cases h1 : bytesLt k k1
    · rw [if_pos h1]
      refine List.chain'_cons'.mpr ⟨?_, hchain⟩
      intro y hy
      have hy2 : (k1, v1) = y := by simpa using hy
      rw [← hy2]
      exact h1
    · rw [if_neg h1]
      by_cases h2 : k = k1
      · rw [if_pos h2]
        refine List.chain'_cons'.mpr ⟨?_, hrest⟩
        intro y hy
        have := hrel y hy
        unfold keyLt at this ⊢
        rw [h2]
        exact this
      · rw [if_neg h2]
        refine List.chain'_cons'.mpr ⟨?_, ih hrest⟩
        intro y hy
        rcases btInsert_head_cases rest k v with hh | hh
        · rw [hh] at hy
          have hy2 : y = (k, v) := by
            have h3 : (k, v) = y := by simpa using hy
            exact h3.symm
          subst hy2
          unfold keyLt
          exact bytesLt_of_not_lt_of_ne (by simpa using h1) (fun hcontra => h2 hcontra)
        · rw [hh] at hy
          exact hrel y hy

/-- The `BTreeMap` buffer built from any producer-order entry sequence has
its keys in strictly ascending byte-lexicographic order. -/
theorem dictBuild_chain (rendered : List (List Nat × List Nat)) :
    List.Chain' keyLt (dictBuild rendered) := by
  unfold dictBuild
  have hgen : ∀ (es : List (List Nat × List Nat)) (acc : List (List Nat × List Nat)),
      List.Chain' keyLt acc →
      List.Chain' keyLt (es.foldl (fun a kv => btInsert a kv.1 kv.2) acc) := by
    intro es
    induction es with
    | nil => intro acc h; exact h
    | cons kv es ih =>
      intro acc h
      exact ih _ (btInsert_chain kv.1 kv.2 acc h)
  exact hgen rendered [] (by simp)

end Bencode

namespace Bencode

/-! ## Call sequences against a byte source (for the position invariant) -/

/-- One observable operation against a byte source. -/
inductive SrcOp where
  | opNext : SrcOp
  | opPeek : SrcOp

/-- The state after one operation: `next` advances (or stays put at end of
input); `peek` never changes the state (`peek_char` takes `&self`). -/
def stepOp {σ : Type} (r : Rd σ) (s : σ) : SrcOp → σ
  | .opNext =>
    match r.next s with
    | some (_, s1) => s1
    | none => s
  | .opPeek => s

/-- The state after a whole sequence of `next`/`peek` calls. -/
def runOps {σ : Type} (r : Rd σ) : σ → List SrcOp → σ
  | s, [] => s
  | s, o :: os => runOps r (stepOp r s o) os

theorem runOps_position_mono {σ : Type} (r : Rd σ)
    (hstep : ∀ (s : σ) (o : SrcOp), r.position s ≤ r.position (stepOp r s o)) :
    ∀ (os : List SrcOp) (s : σ), r.position s ≤ r.position (runOps r s os) := by
  intro os
  induction os with
  | nil => intro s; exact Nat.le_refl _
  | cons o os ih =>
    intro s
    exact Nat.le_trans (hstep s o) (ih (stepOp r s o))

theorem sliceRead_step_mono (s : SliceRead) (o : SrcOp) :
    RdSlice.position s ≤ RdSlice.position (stepOp RdSlice s o) := by
  cases o with
  | opPeek => exact Nat.le_refl _
  | opNext =>
    show s.position ≤ _
    rcases hn : s.next_char with _ | ⟨b, s1⟩
    · simp [stepOp, RdSlice, hn]
    · simp only [stepOp, RdSlice, hn]
      unfold SliceRead.next_char at hn
      rcases hp : s.peek_char with _ | c
      · rw [hp] at hn
        cases hn
      · rw [hp] at hn
        cases hn
        simp [SliceRead.position]

theorem stringRead_step_mono (s : StringRead) (o : SrcOp) :
    RdString.position s ≤ RdString.position (stepOp RdString s o) := by
  cases o with
  | opPeek => exact Nat.le_refl _
  | opNext =>
    show s.position ≤ _
    rcases hn : s.next_char with _ | ⟨b, s1⟩
    · simp [stepOp, RdString, hn]
    · simp only [stepOp, RdString, hn]
      unfold StringRead.next_char at hn
      rcases hn2 : s.slice_read.next_char with _ | ⟨c, sr⟩
      · rw [hn2] at hn
        cases hn
      · rw [hn2] at hn
        cases hn
        unfold SliceRead.next_char at hn2
        rcases hp : s.slice_read.peek_char with _ | c2
        · rw [hp] at hn2
          cases hn2
        · rw [hp] at hn2
          cases hn2
          simp [StringRead.position, SliceRead.position]

theorem iteratorRead_step_mono (s : IteratorRead) (o : SrcOp) :
    RdIter.position s ≤ RdIter.position (stepOp RdIter s o) := by
  cases o with
  | opPeek => exact Nat.le_refl _
  | opNext =>
    show s.position ≤ _
    rcases s with ⟨rem, ch, col⟩
    cases rem with
    | nil => simp [stepOp, RdIter, IteratorRead.next_char, IteratorRead.position]
    | cons b r =>
      simp [stepOp, RdIter, IteratorRead.next_char, IteratorRead.position]

/-! ## Spec-side comparison definitions -/

/-- Modelled from the spec claim, for comparison with `encodeValue`: emit a
dict's entries in ascending byte-lexicographic order of the RAW key bytes
(duplicates: last write wins), each as the key's string encoding followed by
the value encoding. -/
def rawKeyInsert : List (List Nat × Value) → List Nat → Value → List (List Nat × Value)
  | [], k, v => [(k, v)]
  | (k1, v1) :: rest, k, v =>
    if bytesLt k k1 then (k, v) :: (k1, v1) :: rest
    else if k = k1 then (k, v) :: rest
    else (k1, v1) :: rawKeyInsert rest k v

/-- Modelled from the spec claim: the dict output that ascending raw-key-byte
ordering would produce. -/
def specDictRawOrder (es : List (List Nat × Value)) : List Nat :=
  100 :: (((es.foldl (fun acc kv => rawKeyInsert acc kv.1 kv.2) []).map
    fun kv => encodeStrBytes kv.1 ++ encodeValue kv.2).flatten ++ [101])

/-- `serialize_map` driven by a producer whose keys are arbitrary
serializable values: `serialize_map_key` renders the key by a full recursive
encode pass (`to_string(&key)`) and never checks that it is a string;
`serialize_map_value` renders the value likewise, and `finalize_encode`
emits the buffered pairs verbatim. -/
def encodeMapGeneral (es : List (Value × Value)) : List Nat :=
  100 :: (((dictBuild (es.map fun kv => (encodeValue kv.1, encodeValue kv.2))).map
    fun kv => kv.1 ++ kv.2).flatten ++ [101])

end Bencode

namespace Bencode

/-! ## Claim theorems -/

/-- C1, counterexample: the encoder does NOT emit map entries in ascending
byte-lexicographic order of the raw key bytes. For the map with keys
`"z"` and `"aa"` (raw order: `"aa" < "z"`), the `BTreeMap` sorts by the
rendered encodings `"1:z" < "2:aa"`, so the emitted output
`d1:zi1e2:aai2ee` places `"z"` first — it differs from the raw-ascending
output `d2:aai2e1:zi1ee` demanded by the claim. -/
theorem C1_counterexample :
    encodeValue (.vdict [([122], .vint 1), ([97, 97], .vint 2)]) =
      [100, 49, 58, 122, 105, 49, 101, 50, 58, 97, 97, 105, 50, 101, 101] ∧
    specDictRawOrder [([122], .vint 1), ([97, 97], .vint 2)] =
      [100, 50, 58, 97, 97, 105, 50, 101, 49, 58, 122, 105, 49, 101, 101] ∧
    encodeValue (.vdict [([122], .vint 1), ([97, 97], .vint 2)]) ≠
      specDictRawOrder [([122], .vint 1), ([97, 97], .vint 2)] := by
  refine ⟨?_, ?_, ?_⟩
  · simp [encodeValue, encodeEntries, dictBuild, btInsert, encodeStrBytes, bytesLt,
      intDecimal, natDecimal, natDigits]
  · simp [specDictRawOrder, rawKeyInsert, encodeValue, encodeStrBytes, bytesLt,
      intDecimal, natDecimal, natDigits]
  · have h1 : encodeValue (.vdict [([122], .vint 1), ([97, 97], .vint 2)]) =
        [100, 49, 58, 122, 105, 49, 101, 50, 58, 97, 97, 105, 50, 101, 101] := by
      simp [encodeValue, encodeEntries, dictBuild, btInsert, encodeStrBytes, bytesLt,
        intDecimal, natDecimal, natDigits]
    have h2 : specDictRawOrder [([122], .vint 1), ([97, 97], .vint 2)] =
        [100, 50, 58, 97, 97, 105, 50, 101, 49, 58, 122, 105, 49, 101, 101] := by
      simp [specDictRawOrder, rawKeyInsert, encodeValue, encodeStrBytes, bytesLt,
        intDecimal, natDecimal, natDigits]
    rw [h1, h2]
    decide

/-- C1, amended: for every producer-order entry sequence, the encoder's
canonicalization buffer — and hence the emitted entry order — is strictly
ascending in byte-lexicographic order of the RENDERED key encoding
`<len>:<bytes>` (the `BTreeMap<String, String>` key), which coincides with
raw-key order for the single-character example: a map inserted as
`{"b": 1, "a": 2}` encodes to exactly `d1:ai2e1:bi1ee`. -/
theorem C1_amended :
    (∀ rendered : List (List Nat × List Nat), List.Chain' keyLt (dictBuild rendered)) ∧
    encodeValue (.vdict [([98], .vint 1), ([97], .vint 2)]) =
      [100, 49, 58, 97, 105, 50, 101, 49, 58, 98, 105, 49, 101, 101] := by
  constructor
  · exact dictBuild_chain
  · simp [encodeValue, encodeEntries, dictBuild, btInsert, encodeStrBytes, bytesLt,
      intDecimal, natDecimal, natDigits]

/-- C2, code bug: round-trip fails. For the supported value
`[[], [1]] : Vec<Vec<i64>>`, whose encoding is `lleli1eee`, decoding yields
`Ok([[]])` — the element after the inner list is lost, because
`SeqVisitor::end` peeks the list terminator `e` without consuming it, so the
parent list mistakes the inner list's terminator for its own. -/
theorem C2_roundtrip_failure :
    from_slice (to_vec (.vlist [.vlist [], .vlist [.vint 1]])) =
      .ok (.vlist [.vlist []]) ∧
    (Except.ok (.vlist [.vlist []]) : Except DErr Value) ≠
      .ok (.vlist [.vlist [], .vlist [.vint 1]]) := by
  constructor
  · have henc : to_vec (.vlist [.vlist [], .vlist [.vint 1]]) =
        [108, 108, 101, 108, 105, 49, 101, 101, 101] := by
      simp [to_vec, encodeValue, encodeVList, intDecimal, natDecimal, natDigits]
    rw [henc]
    rfl
  · simp

/-- C3, counterexample: the byte-stream entry point does NOT fail on
trailing characters after the root value. Decoding `i1ei2e` through
`from_reader` returns `Ok(1)`: `IteratorRead::peek_char` reports the most
recently consumed byte (the `e` of `i1e`), which `Deserializer::end`
accepts as a container-close marker. -/
theorem C3_counterexample :
    from_reader [105, 49, 101, 105, 50, 101] = .ok (.vint 1) := rfl

/-- C3, amended: for the slice and owned-string entry points the
trailing-bytes check behaves as claimed — after the root value the next
byte must be `e` or end of input, anything else is
`UnexpectedTrailingChars`; `i1ei2e` fails with that error while `li1ei2ee`
decodes to the list `[1, 2]`. (The stream entry point deviates: see the
counterexample.) -/
theorem C3_amended :
    (∀ s : SliceRead, deEnd RdSlice s = .ok () ↔
      (SliceRead.peek_char s = some 101 ∨ SliceRead.peek_char s = none)) ∧
    from_slice [105, 49, 101, 105, 50, 101] = .error .unexpectedTrailingChars ∧
    from_string [105, 49, 101, 105, 50, 101] = .error .unexpectedTrailingChars ∧
    from_slice [108, 105, 49, 101, 105, 50, 101, 101] =
      .ok (.vlist [.vint 1, .vint 2]) ∧
    from_string [108, 105, 49, 101, 105, 50, 101, 101] =
      .ok (.vlist [.vint 1, .vint 2]) := by
  refine ⟨?_, rfl, rfl, rfl, rfl⟩
  intro s
  simp only [deEnd, RdSlice]
  rcases hp : SliceRead.peek_char s with _ | c
  · simp
  · by_cases hc : c = 101
    · simp [hc]
    · simp [hc]

/-- C4, counterexample: the stream source violates the peek contract. In the
initial state (nothing consumed yet, `ch` empty) `peek_char` returns `None`
although the next `next_char` call returns a byte. -/
theorem C4_counterexample :
    ¬ ∀ s : IteratorRead,
        IteratorRead.peek_char s = Option.map Prod.fst (IteratorRead.next_char s) := by
  intro h
  have hcontra := h ⟨[97], none, 0⟩
  simp [IteratorRead.peek_char, IteratorRead.next_char] at hcontra

/-- C4, amended: the slice and text sources satisfy the peek contract —
`peek_char` returns exactly the byte the next `next_char` call will return,
and `None` exactly at end of input — while the stream source's `peek_char`
returns the `ch` cell, i.e. the most recently consumed byte (so after a
successful `next_char` returning `b`, its `peek_char` reports `b`). -/
theorem C4_amended :
    (∀ s : SliceRead,
      SliceRead.peek_char s = Option.map Prod.fst (SliceRead.next_char s)) ∧
    (∀ s : StringRead,
      StringRead.peek_char s = Option.map Prod.fst (StringRead.next_char s)) ∧
    (∀ s : IteratorRead, IteratorRead.peek_char s = s.ch) ∧
    (∀ (s : IteratorRead) (b : Nat) (s1 : IteratorRead),
      IteratorRead.next_char s = some (b, s1) →
      IteratorRead.peek_char s1 = some b) := by
  refine ⟨?_, ?_, fun s => rfl, ?_⟩
  · intro s
    unfold SliceRead.next_char
    rcases hp : s.peek_char with _ | c <;> simp [hp]
  · intro s
    unfold StringRead.next_char StringRead.peek_char SliceRead.next_char
    rcases hp : s.slice_read.peek_char with _ | c <;> simp [hp]
  · intro s b s1 hn
    unfold IteratorRead.next_char at hn
    rcases s with ⟨rem, ch, col⟩
    cases rem with
    | nil => cases hn
    | cons x r =>
      simp only [Option.some.injEq, Prod.mk.injEq] at hn
      obtain ⟨hb, hs⟩ := hn
      rw [← hs]
      unfold IteratorRead.peek_char
      rw [hb]

/-- C4, witness for the amended stream conjunct: after consuming the byte
97 from a fresh stream, `peek_char` reports 97. -/
theorem C4_amended_witness :
    IteratorRead.peek_char ⟨[], some 97, 1⟩ = some 97 :=
  C4_amended.2.2.2 ⟨[97], none, 0⟩ 97 ⟨[], some 97, 1⟩ rfl

/-- C5, code bug: when the decoder sees the list terminator `e`, it does
NOT consume it. Decoding the list `le` from position 0 ends at position 1 —
immediately BEFORE the `e`, not after it — because both `SeqVisitor::visit`
and `SeqVisitor::end` only peek. The root decode still reports success since
`Deserializer::end` tolerates a pending `e`. -/
theorem C5_terminator_not_consumed :
    parseValueG RdSlice 3 ⟨[108, 101], 0⟩ = .ok (.vlist [], ⟨[108, 101], 1⟩) ∧
    from_slice [108, 101] = .ok (.vlist []) :=
  ⟨rfl, rfl⟩

/-- C6: for every sequence of `next`/`peek` calls against any of the three
byte sources, the reported position never decreases (the stream source's
counter is modelled from the spec as a count of consumed bytes, since it
lives in serde's `LineColIterator`, outside this repository). -/
theorem C6_position_monotone :
    (∀ (os : List SrcOp) (s : SliceRead),
      RdSlice.position s ≤ RdSlice.position (runOps RdSlice s os)) ∧
    (∀ (os : List SrcOp) (s : StringRead),
      RdString.position s ≤ RdString.position (runOps RdString s os)) ∧
    (∀ (os : List SrcOp) (s : IteratorRead),
      RdIter.position s ≤ RdIter.position (runOps RdIter s os)) :=
  ⟨runOps_position_mono _ sliceRead_step_mono,
   runOps_position_mono _ stringRead_step_mono,
   runOps_position_mono _ iteratorRead_step_mono⟩

/-- C7: `i0e` is accepted as zero, while the malformed zero and empty forms
`i-0e`, `i00e`, `i03e` and `ie` each fail with an `UnexpectedToken` syntax
error naming the offending byte. -/
theorem C7_integer_zero_forms :
    from_slice [105, 48, 101] = .ok (.vint 0) ∧
    from_slice [105, 45, 48, 101] = .error (.unexpectedToken 48) ∧
    from_slice [105, 48, 48, 101] = .error (.unexpectedToken 48) ∧
    from_slice [105, 48, 51, 101] = .error (.unexpectedToken 51) ∧
    from_slice [105, 101] = .error (.unexpectedToken 101) :=
  ⟨rfl, rfl, rfl, rfl, rfl⟩

/-- C8: `serialize_u64` fails with `NumberOutOfRange` — writing nothing —
for every unsigned value strictly above `i64::MAX = 2^63 - 1`, and emits
`i<decimal>e` for every value up to and including it. -/
theorem C8_u64_range (v : Nat) :
    (2 ^ 63 - 1 < v → serialize_u64 v = .error (.numberOutOfRange v)) ∧
    (v ≤ 2 ^ 63 - 1 → serialize_u64 v = .ok (105 :: (natDecimal v ++ [101]))) := by
  constructor <;> intro h <;> unfold serialize_u64
  · rw [if_pos h]
  · rw [if_neg (by omega)]

/-- C8, witness: `2^63` is rejected with the range error; `2^63 - 1` is
encoded. -/
theorem C8_u64_range_witness :
    serialize_u64 (2 ^ 63) = .error (.numberOutOfRange (2 ^ 63)) ∧
    serialize_u64 (2 ^ 63 - 1) = .ok (105 :: (natDecimal (2 ^ 63 - 1) ++ [101])) :=
  ⟨(C8_u64_range (2 ^ 63)).1 (by norm_num),
   (C8_u64_range (2 ^ 63 - 1)).2 (Nat.le_refl _)⟩

/-- C9: string decoding reads exactly the declared number of payload bytes —
parsing the encoding of any valid-UTF-8 string off a `SliceRead` returns
that string and leaves exactly the trailing bytes unread; the truncated
input `4:sp` fails with `UnexpectedEOF`, and a length-1 string whose
payload byte 255 is not valid UTF-8 fails with the text-encoding error. -/
theorem C9_string_decoding :
    (∀ (s : SliceRead) (p rest : List Nat) (f : Nat),
      utf8Valid p = true → p.length < 2 ^ 63 → (natDecimal p.length).length ≤ f →
      sliceView s = encodeStrBytes p ++ rest →
      ∃ t : SliceRead, parseValueG RdSlice (f + 1) s = .ok (.vstr p, t) ∧
        sliceView t = rest) ∧
    from_slice [52, 58, 115, 112] = .error .unexpectedEOF ∧
    from_slice [49, 58, 255] = .error .utf8Error := by
  refine ⟨?_, rfl, rfl⟩
  intro s p rest f hu hlen hf hview
  have hhom := (parseG_hom sliceView_hom (f + 1)).1 s
  rw [hview, parseValueG_string_exact p rest f hu hlen hf] at hhom
  rcases hres : parseValueG RdSlice (f + 1) s with e | ⟨v, t⟩
  · rw [hres] at hhom
    exact absurd hhom (by simp [emap_error])
  · rw [hres, emap_ok] at hhom
    simp only [Except.ok.injEq, Prod.mk.injEq] at hhom
    obtain ⟨hv, hr⟩ := hhom
    exact ⟨t, by rw [← hv], hr.symm⟩

/-- C9, witness: parsing `2:sp` with trailing byte `x` returns the string
`sp` and leaves exactly `x` unread. -/
theorem C9_string_decoding_witness :
    ∃ t : SliceRead, parseValueG RdSlice 2 ⟨[50, 58, 115, 112, 120], 0⟩ =
      .ok (.vstr [115, 112], t) ∧ sliceView t = [120] :=
  C9_string_decoding.1 ⟨[50, 58, 115, 112, 120], 0⟩ [115, 112] [120] 1
    (by decide) (by norm_num)
    (by simp [natDecimal, natDigits])
    (by simp [sliceView, encodeStrBytes, natDecimal, natDigits])

/-- C10: `serialize_map_key` accepts an integer key — it renders it with a
full recursive encode pass and `finalize_encode` emits those bytes verbatim
in key position — so the map `{5: 1}` encodes without error to `di5ei1ee`,
a document whose dict key is not a string and which the decoder itself
rejects with `UnexpectedToken(i)` at the key position. -/
theorem C10_nonstring_key :
    encodeMapGeneral [(.vint 5, .vint 1)] =
      [100, 105, 53, 101, 105, 49, 101, 101] ∧
    from_slice [100, 105, 53, 101, 105, 49, 101, 101] =
      .error (.unexpectedToken 105) := by
  constructor
  · simp [encodeMapGeneral, dictBuild, btInsert, encodeValue, intDecimal,
      natDecimal, natDigits]
  · rfl

end Bencode
